import Mathlib

/-!
# Verification of the trade-dashboard client-side analytics

Shallow embedding of the two source files of the repository:

* `src/app/analysis/page.tsx` — namespace `Analysis`: the `Trade` row shape
  used by the analysis view, `computeStats`, `makeHistogram` and the
  cumulative-profit `timeseries` computation, plus the query built by
  `fetchTrades`.
* `src/app/page.tsx` — namespace `Dashboard`: the full `Trade` row shape,
  the active/history partition, `totalClosedProfit`, the dashboard
  `winRate`, and the query built by `fetchData`.

Modelling conventions:

* JavaScript numbers are modelled as `ℚ` (exact arithmetic; the spec and the
  code describe real-number arithmetic, not floating-point artefacts).
* A nullable numeric field `x : number | null` becomes `Option ℚ`; the JS
  fallback `x || 0` becomes `Option.getD x 0` (for a numeric option the two
  agree: `null` ↦ 0 and a stored 0 ↦ 0).
* `open_time` strings are modelled by their epoch value (`new Date(s).getTime()`),
  i.e. directly as the numeric sort key the code derives from them.
* `Array.prototype.sort` with comparator `(a, b) => ka - kb` is a stable sort
  ascending on the key; it is modelled by `List.mergeSort` (stable) with the
  boolean relation `ka ≤ kb`.
* A JS write `counts[idx]++` with `idx` outside `0 .. counts.length - 1` does
  not change any array slot (it creates a non-index property), so the returned
  list of counts is unchanged; `bump` models exactly that.
* Locale-dependent label strings of the time series (`toLocaleString`, the
  `DD/MM` axis form) are presentation only and are not modelled; `Number.toFixed(2)`
  (used for histogram labels) is modelled exactly by `toFixed2` below.
-/

namespace TradeDashboard

/-- The shape of a row-query against the `trades` table, as built by the two
views before awaiting it: selected columns, the `order` call's column and
direction, and the optional inclusive range bounds on `open_time`. -/
structure TradesQuery where
  selectCols : String
  orderColumn : String
  ascending : Bool
  gteOpenTime : Option String
  lteOpenTime : Option String
deriving DecidableEq

namespace Analysis

/-- `interface Trade` of `src/app/analysis/page.tsx` (lines 20–24):
`ticket: number`, `profit: number | null`, `open_time?: string`
(the time modelled by its epoch value). -/
structure Trade where
  ticket : Int
  profit : Option ℚ
  open_time : Option ℚ
deriving DecidableEq

/-- The JS fallback `t.profit || 0` applied throughout the aggregation code. -/
def profitOrZero (t : Trade) : ℚ := t.profit.getD 0

/-- Result record of `computeStats`. -/
structure Stats where
  total : ℕ
  sum : ℚ
  avg : ℚ
  winRate : ℚ
deriving DecidableEq

/-- `computeStats` (analysis page, lines 26–34). -/
def computeStats (trades : List Trade) : Stats :=
  let total := trades.length
  let profits := trades.map profitOrZero
  let sum := profits.foldl (· + ·) 0
  let avg := if total ≠ 0 then sum / (total : ℚ) else 0
  let wins := (profits.filter (fun p => decide (0 ≤ p))).length
  let winRate := if total ≠ 0 then ((wins : ℚ) / (total : ℚ)) * 100 else 0
  ⟨total, sum, avg, winRate⟩

/-- `Math.min(...profits)`; the empty case is unreachable in `makeHistogram`
(the function returns before computing extrema when `profits` is empty). -/
def listMin : List ℚ → ℚ
  | [] => 0
  | p :: ps => ps.foldl min p

/-- `Math.max(...profits)`; empty case unreachable as for `listMin`. -/
def listMax : List ℚ → ℚ
  | [] => 0
  | p :: ps => ps.foldl max p

/-- `const range = max - min || 1` (line 40): a zero width is replaced by 1. -/
def histRange (profits : List ℚ) : ℚ :=
  if listMax profits - listMin profits = 0 then 1 else listMax profits - listMin profits

/-- `const binWidth = range / bins` (line 41). -/
def histBinWidth (profits : List ℚ) (bins : ℕ) : ℚ :=
  histRange profits / (bins : ℚ)

/-- Renders the two base-10 digit groups of `n` hundredths as `"w.ff"`. -/
def fixedDigits (n : ℕ) : String :=
  toString (n / 100) ++ "." ++
    (if n % 100 < 10 then "0" ++ toString (n % 100) else toString (n % 100))

/-- `Number.prototype.toFixed(2)`: sign extracted first, then the magnitude is
rounded to the nearest hundredth with ties taking the larger candidate
(round half up), per ECMA-262. -/
def toFixed2 (q : ℚ) : String :=
  if q < 0 then "-" ++ fixedDigits ⌊-q * 100 + 1 / 2⌋.toNat
  else fixedDigits ⌊q * 100 + 1 / 2⌋.toNat

/-- Bucket index of value `p`:
`Math.min(bins - 1, Math.floor((p - min) / binWidth))` (line 49). -/
def hIdx (mn binWidth : ℚ) (bins : ℕ) (p : ℚ) : Int :=
  min ((bins : Int) - 1) ⌊(p - mn) / binWidth⌋

/-- `counts[idx]++`: in range, the slot is incremented; out of range, the
array's indexed slots are unchanged (JS creates a non-index property). -/
def bump (counts : List ℕ) (idx : Int) : List ℕ :=
  if 0 ≤ idx ∧ idx.toNat < counts.length then
    counts.set idx.toNat (counts.getD idx.toNat 0 + 1)
  else counts

/-- Result record of `makeHistogram`. -/
structure Histogram where
  labels : List String
  counts : List ℕ
deriving DecidableEq

/-- `makeHistogram` (analysis page, lines 36–53). Labels use an en dash
`"a–b"`; counts start as `bins` zeros and each profit bumps its bucket. -/
def makeHistogram (profits : List ℚ) (bins : ℕ) : Histogram :=
  if profits.length = 0 then ⟨[], []⟩
  else
    let mn := listMin profits
    let binWidth := histBinWidth profits bins
    let labels := (List.range bins).map (fun i : ℕ =>
      toFixed2 (mn + (i : ℚ) * binWidth) ++ "–" ++ toFixed2 (mn + (i : ℚ) * binWidth + binWidth))
    let counts := profits.foldl (fun cs p => bump cs (hIdx mn binWidth bins p)) (List.replicate bins 0)
    ⟨labels, counts⟩

/-- Comparator of the time-series sort,
`(a, b) => new Date(a.open_time!).getTime() - new Date(b.open_time!).getTime()`:
ascending on the epoch value (every sorted element has `open_time` present,
so the `getD` default is never consulted). -/
def tsLe (a b : Trade) : Bool := decide (a.open_time.getD 0 ≤ b.open_time.getD 0)

/-- `[...trades].filter(t => t.open_time).sort(...)` (line 96): drop trades
without `open_time`, stable-sort the rest ascending by it. -/
def sortedByOpenTime (trades : List Trade) : List Trade :=
  (trades.filter (fun t => t.open_time.isSome)).mergeSort tsLe

/-- The running-total loop of the `timeseries` memo (lines 104–109):
`acc += s.profit || 0; cum.push(acc)`. -/
def cumFrom (acc : ℚ) : List ℚ → List ℚ
  | [] => []
  | p :: ps => (acc + p) :: cumFrom (acc + p) ps

/-- The `cum` array of the `timeseries` memo (lines 95–111): prefix sums of
the profits of the time-sorted trades. -/
def timeseries (trades : List Trade) : List ℚ :=
  cumFrom 0 ((sortedByOpenTime trades).map profitOrZero)

/-- The query built by `fetchTrades` (lines 69–81):
`from('trades').select('ticket,profit,open_time').order('open_time', { ascending: true })`,
then `.gte` / `.lte` on `open_time` only when the bound is truthy
(a missing or empty string adds no bound). -/
def fetchTradesQuery (fromDate toDate : Option String) : TradesQuery :=
  { selectCols := "ticket,profit,open_time"
    orderColumn := "open_time"
    ascending := true
    gteOpenTime := if fromDate.getD "" = "" then none else fromDate
    lteOpenTime := if toDate.getD "" = "" then none else toDate }

end Analysis

namespace Dashboard

/-- `interface Trade` of `src/app/page.tsx` (lines 9–19); the opaque
`indicators` payload is unused by every computation and omitted. -/
structure Trade where
  ticket : Int
  symbol : String
  action : String
  open_price : ℚ
  close_price : Option ℚ
  profit : Option ℚ
  open_time : ℚ
  close_time : Option ℚ
deriving DecidableEq

/-- `trades.filter(t => t.close_time === null)` (line 41). -/
def activeTrades (trades : List Trade) : List Trade :=
  trades.filter (fun t => t.close_time = none)

/-- `trades.filter(t => t.close_time !== null)` (line 42). -/
def historyTrades (trades : List Trade) : List Trade :=
  trades.filter (fun t => t.close_time ≠ none)

/-- `historyTrades.reduce((sum, t) => sum + (t.profit || 0), 0)` (line 45). -/
def totalClosedProfit (trades : List Trade) : ℚ :=
  (historyTrades trades).foldl (fun s t => s + t.profit.getD 0) 0

/-- The numeric value the dashboard `winRate` formats (lines 46–48):
percentage of history trades with `(t.profit || 0) >= 0`, or 0 when there is
no history trade. -/
def winRate (trades : List Trade) : ℚ :=
  if 0 < (historyTrades trades).length then
    (((historyTrades trades).filter (fun t => decide (0 ≤ t.profit.getD 0))).length : ℚ)
      / ((historyTrades trades).length : ℚ) * 100
  else 0

/-- The query built by `fetchData` (lines 82–89):
`from('trades').select('*').order('open_time', { ascending: false })`,
no range bound. -/
def fetchDataQuery : TradesQuery :=
  { selectCols := "*"
    orderColumn := "open_time"
    ascending := false
    gteOpenTime := none
    lteOpenTime := none }

end Dashboard

namespace Analysis

/-- Replaces an absent profit by a stored `0` (the substitution claim C8 is
about); every other field is kept. -/
def zeroFill (t : Trade) : Trade := { t with profit := some (profitOrZero t) }

/-- The end-to-end scenario of the spec: profits `100`, `-40`, `null` at
strictly ascending open times. -/
def exampleTrades : List Trade :=
  [⟨1, some 100, some 0⟩, ⟨2, some (-40), some 1⟩, ⟨3, none, some 2⟩]

end Analysis

namespace Dashboard

/-- Replaces an absent profit of a dashboard trade by a stored `0`. -/
def zeroFill (t : Trade) : Trade := { t with profit := some (t.profit.getD 0) }

end Dashboard

/-! ## Helper lemmas -/

namespace Analysis

theorem foldl_add_eq_add_sum (l : List ℚ) (a : ℚ) : l.foldl (· + ·) a = a + l.sum := by
  induction l generalizing a with
  | nil => simp
  | cons p ps ih => simp [List.foldl_cons, ih (a + p), List.sum_cons, add_assoc]

theorem profitOrZero_zeroFill (t : Trade) : profitOrZero (zeroFill t) = profitOrZero t := by
  cases t with
  | mk ticket profit ot => cases profit <;> rfl

theorem open_time_zeroFill (t : Trade) : (zeroFill t).open_time = t.open_time := rfl

theorem map_profitOrZero_zeroFill (l : List Trade) :
    (l.map zeroFill).map profitOrZero = l.map profitOrZero := by
  rw [List.map_map]
  exact List.map_congr_left fun t _ => profitOrZero_zeroFill t

theorem cumFrom_length (acc : ℚ) (l : List ℚ) : (cumFrom acc l).length = l.length := by
  induction l generalizing acc with
  | nil => rfl
  | cons p ps ih => simp [cumFrom, ih]

theorem cumFrom_getLast? (acc : ℚ) (l : List ℚ) (h : l ≠ []) :
    (cumFrom acc l).getLast? = some (acc + l.sum) := by
  induction l generalizing acc with
  | nil => exact absurd rfl h
  | cons p ps ih =>
    cases ps with
    | nil => simp [cumFrom]
    | cons q qs =>
      have hrec := ih (acc + p) (List.cons_ne_nil q qs)
      have hunf : cumFrom acc (p :: q :: qs) = (acc + p) :: cumFrom (acc + p) (q :: qs) := rfl
      obtain ⟨y, ys, hys⟩ : ∃ y ys, cumFrom (acc + p) (q :: qs) = y :: ys := ⟨_, _, rfl⟩
      rw [hunf, hys, List.getLast?_cons_cons, ← hys, hrec, List.sum_cons, add_assoc]
      simp [List.sum_cons]

theorem foldl_min_le (l : List ℚ) (a : ℚ) : l.foldl min a ≤ a := by
  induction l generalizing a with
  | nil => exact le_refl a
  | cons b bs ih => exact le_trans (ih (min a b)) (min_le_left a b)

theorem foldl_min_le_of_mem {l : List ℚ} {p : ℚ} (hp : p ∈ l) :
    ∀ a : ℚ, l.foldl min a ≤ p := by
  induction l with
  | nil => exact absurd hp (List.not_mem_nil p)
  | cons b bs ih =>
    intro a
    rcases List.mem_cons.mp hp with h | h
    · subst h
      exact le_trans (foldl_min_le bs (min a p)) (min_le_right a p)
    · exact ih h (min a b)

theorem le_foldl_max (l : List ℚ) (a : ℚ) : a ≤ l.foldl max a := by
  induction l generalizing a with
  | nil => exact le_refl a
  | cons b bs ih => exact le_trans (le_max_left a b) (ih (max a b))

theorem le_foldl_max_of_mem {l : List ℚ} {p : ℚ} (hp : p ∈ l) :
    ∀ a : ℚ, p ≤ l.foldl max a := by
  induction l with
  | nil => exact absurd hp (List.not_mem_nil p)
  | cons b bs ih =>
    intro a
    rcases List.mem_cons.mp hp with h | h
    · subst h
      exact le_trans (le_max_right a p) (le_foldl_max bs (max a p))
    · exact ih h (max a b)

theorem listMin_le_of_mem {l : List ℚ} {p : ℚ} (hp : p ∈ l) : listMin l ≤ p := by
  cases l with
  | nil => exact absurd hp (List.not_mem_nil p)
  | cons a as =>
    rw [listMin]
    rcases List.mem_cons.mp hp with h | h
    · subst h
      exact foldl_min_le as p
    · exact foldl_min_le_of_mem h a

theorem le_listMax_of_mem {l : List ℚ} {p : ℚ} (hp : p ∈ l) : p ≤ listMax l := by
  cases l with
  | nil => exact absurd hp (List.not_mem_nil p)
  | cons a as =>
    rw [listMax]
    rcases List.mem_cons.mp hp with h | h
    · subst h
      exact le_foldl_max as p
    · exact le_foldl_max_of_mem h a

theorem listMin_le_listMax {l : List ℚ} (h : l ≠ []) : listMin l ≤ listMax l := by
  cases l with
  | nil => exact absurd rfl h
  | cons a as =>
    exact le_trans (listMin_le_of_mem (List.mem_cons_self a as))
      (le_listMax_of_mem (List.mem_cons_self a as))

theorem histRange_pos (profits : List ℚ) (h : profits ≠ []) : 0 < histRange profits := by
  rw [histRange]
  by_cases hz : listMax profits - listMin profits = 0
  · rw [if_pos hz]; exact one_pos
  · rw [if_neg hz]
    have hle := listMin_le_listMax h
    exact lt_of_le_of_ne (by linarith) (Ne.symm hz)

theorem histBinWidth_pos (profits : List ℚ) (bins : ℕ) (h : profits ≠ []) (hb : 1 ≤ bins) :
    0 < histBinWidth profits bins := by
  rw [histBinWidth]
  exact div_pos (histRange_pos profits h) (by exact_mod_cast Nat.lt_of_lt_of_le Nat.zero_lt_one hb)

theorem bump_length (counts : List ℕ) (idx : Int) :
    (bump counts idx).length = counts.length := by
  rw [bump]
  split
  · exact List.length_set counts _ _
  · rfl

theorem bump_nil (idx : Int) : bump [] idx = [] := by
  rw [bump, if_neg]
  intro hc
  exact absurd hc.2 (by simp)

theorem sum_set_succ (cs : List ℕ) (i : ℕ) (hi : i < cs.length) :
    (cs.set i (cs.getD i 0 + 1)).sum = cs.sum + 1 := by
  induction cs generalizing i with
  | nil => exact absurd hi (by simp)
  | cons c rest ih =>
    cases i with
    | zero => simp [List.sum_cons, Nat.add_right_comm]
    | succ j =>
      have hj : j < rest.length := Nat.lt_of_succ_lt_succ (by simpa using hi)
      simp only [List.set_cons_succ, List.getD_cons_succ, List.sum_cons, ih j hj]
      omega

theorem bump_sum (counts : List ℕ) (idx : Int) (h0 : 0 ≤ idx)
    (hlt : idx.toNat < counts.length) :
    (bump counts idx).sum = counts.sum + 1 := by
  rw [bump, if_pos ⟨h0, hlt⟩]
  exact sum_set_succ counts idx.toNat hlt

theorem foldl_bump_sum (g : ℚ → Int) (l : List ℚ) (cs : List ℕ)
    (hmem : ∀ p ∈ l, 0 ≤ g p ∧ (g p).toNat < cs.length) :
    (l.foldl (fun acc p => bump acc (g p)) cs).sum = cs.sum + l.length := by
  induction l generalizing cs with
  | nil => simp
  | cons p ps ih =>
    have hp := hmem p (List.mem_cons_self p ps)
    rw [List.foldl_cons, ih (bump cs (g p)) ?rest, bump_sum cs (g p) hp.1 hp.2,
      List.length_cons]
    · omega
    case rest =>
      intro q hq
      rw [bump_length]
      exact hmem q (List.mem_cons_of_mem p hq)

theorem foldl_bump_nil (g : ℚ → Int) (l : List ℚ) :
    l.foldl (fun acc p => bump acc (g p)) [] = [] := by
  induction l with
  | nil => rfl
  | cons p ps ih => rw [List.foldl_cons, bump_nil, ih]

theorem hIdx_nonneg (mn bw : ℚ) (bins : ℕ) (p : ℚ) (hbw : 0 < bw) (hmn : mn ≤ p)
    (hb : 1 ≤ bins) : 0 ≤ hIdx mn bw bins p := by
  rw [hIdx]
  apply le_min
  · omega
  · exact Int.floor_nonneg.mpr (div_nonneg (by linarith) hbw.le)

theorem hIdx_lt (mn bw : ℚ) (bins : ℕ) (p : ℚ) : hIdx mn bw bins p < (bins : Int) := by
  have h := min_le_left ((bins : Int) - 1) ⌊(p - mn) / bw⌋
  rw [hIdx]
  omega

end Analysis

/-! ## Claim theorems -/

namespace Analysis

/-- **C1.** `computeStats` returns `total` = the number of trades, `sum` = the
sum of profits with an absent profit read as 0, `avg` = `sum / total` (0 when
`total = 0`), and `winRate` = `100 * (count of trades with profit ≥ 0) / total`
(0 when `total = 0`); on the empty list it returns all zeros, and a trade whose
profit is exactly 0 counts as a win. -/
theorem computeStats_spec (trades : List Trade) :
    (computeStats trades).total = trades.length ∧
    (computeStats trades).sum = (trades.map profitOrZero).sum ∧
    (computeStats trades).avg =
      (if trades.length ≠ 0 then (computeStats trades).sum / (trades.length : ℚ) else 0) ∧
    (computeStats trades).winRate =
      (if trades.length ≠ 0 then
        100 * ((trades.filter (fun t => decide (0 ≤ profitOrZero t))).length : ℚ)
          / (trades.length : ℚ)
      else 0) ∧
    computeStats [] = ⟨0, 0, 0, 0⟩ ∧
    (computeStats [⟨1, some 0, none⟩]).winRate = 100 := by
  have hwins : ((trades.map profitOrZero).filter (fun p => decide (0 ≤ p))).length
      = (trades.filter (fun t => decide (0 ≤ profitOrZero t))).length := by
    rw [List.filter_map, List.length_map]
    rfl
  refine ⟨rfl, ?_, rfl, ?_, ?_, ?_⟩
  · simp only [computeStats]
    rw [foldl_add_eq_add_sum, zero_add]
  · simp only [computeStats, hwins]
    by_cases hlen : trades.length ≠ 0
    · rw [if_pos hlen, if_pos hlen]
      ring
    · rw [if_neg hlen, if_neg hlen]
  · rfl
  · norm_num [computeStats, profitOrZero, List.filter]

/-- **C2.** For every non-empty profits list and every `bins ≥ 1`, the counts
returned by `makeHistogram` sum to the length of the profits list: each value
is counted in exactly one bucket. -/
theorem makeHistogram_counts_sum (profits : List ℚ) (bins : ℕ)
    (hne : profits ≠ []) (hb : 1 ≤ bins) :
    (makeHistogram profits bins).counts.sum = profits.length := by
  have hlen0 : ¬ profits.length = 0 := fun hc => hne (List.length_eq_zero.mp hc)
  have hbw := histBinWidth_pos profits bins hne hb
  simp only [makeHistogram, if_neg hlen0]
  rw [foldl_bump_sum (hIdx (listMin profits) (histBinWidth profits bins) bins) profits
    (List.replicate bins 0) ?bounds]
  · simp
  case bounds =>
    intro p hp
    have h0 := hIdx_nonneg (listMin profits) (histBinWidth profits bins) bins p hbw
      (listMin_le_of_mem hp) hb
    have h1 := hIdx_lt (listMin profits) (histBinWidth profits bins) bins p
    refine ⟨h0, ?_⟩
    rw [List.length_replicate]
    omega

/-- **C2 witness.** The bucket counts of `makeHistogram [5] 1` sum to 1. -/
theorem makeHistogram_counts_sum_witness :
    ([(5 : ℚ)] ≠ [] ∧ 1 ≤ 1) ∧ (makeHistogram [(5 : ℚ)] 1).counts.sum = [(5 : ℚ)].length :=
  ⟨⟨List.cons_ne_nil 5 [], le_refl 1⟩,
    makeHistogram_counts_sum [(5 : ℚ)] 1 (List.cons_ne_nil 5 []) (le_refl 1)⟩

/-- **C10.** With `bins = 0` and a non-empty profits list, `makeHistogram`
computes bucket index `min (0 - 1) ⌊(p - min) / binWidth⌋ = -1` for every
value — out of range for the zero-length counts array, so no count is
recorded — and returns empty labels and counts whose sum is 0, not the input
length; the `bins ≥ 1` precondition of the histogram properties is necessary. -/
theorem makeHistogram_zero_bins (profits : List ℚ) (h : profits ≠ []) :
    (makeHistogram profits 0).labels = [] ∧
    (makeHistogram profits 0).counts = [] ∧
    (makeHistogram profits 0).counts.sum = 0 ∧
    (makeHistogram profits 0).counts.sum ≠ profits.length ∧
    (∀ p ∈ profits, hIdx (listMin profits) (histBinWidth profits 0) 0 p = -1) ∧
    (∀ idx : Int, idx < 0 → bump [] idx = []) := by
  have hlen0 : ¬ profits.length = 0 := fun hc => h (List.length_eq_zero.mp hc)
  have hcounts : (makeHistogram profits 0).counts = [] := by
    simp only [makeHistogram, if_neg hlen0, List.replicate]
    exact foldl_bump_nil _ profits
  refine ⟨?_, hcounts, ?_, ?_, ?_, ?_⟩
  · simp [makeHistogram, if_neg hlen0, h]
  · rw [hcounts]; rfl
  · rw [hcounts]
    intro hc
    exact hlen0 hc.symm
  · intro p hp
    have hbw : histBinWidth profits 0 = 0 := by
      rw [histBinWidth, Nat.cast_zero, div_zero]
    rw [hIdx, hbw, div_zero, Int.floor_zero]
    rfl
  · intro idx _
    exact bump_nil idx

/-- **C10 witness.** The conclusions at the concrete one-element profits list
`[5]`. -/
theorem makeHistogram_zero_bins_witness :
    ([(5 : ℚ)] ≠ []) ∧ (makeHistogram [(5 : ℚ)] 0).counts = [] ∧
    (makeHistogram [(5 : ℚ)] 0).counts.sum ≠ [(5 : ℚ)].length := by
  have h := makeHistogram_zero_bins [(5 : ℚ)] (List.cons_ne_nil 5 [])
  exact ⟨List.cons_ne_nil 5 [], h.2.1, h.2.2.2.1⟩

/-- **C6.** `makeHistogram [5,5,5] 4` involves no zero divisor: the raw range
`max - min` is 0, the clamped range is 1, the bin width `1/4` is non-zero,
every value is assigned bucket 0, and the counts are exactly `[3,0,0,0]`. -/
theorem makeHistogram_degenerate_range :
    listMax [(5 : ℚ), 5, 5] - listMin [(5 : ℚ), 5, 5] = 0 ∧
    histRange [(5 : ℚ), 5, 5] = 1 ∧
    histBinWidth [(5 : ℚ), 5, 5] 4 ≠ 0 ∧
    (∀ p ∈ [(5 : ℚ), 5, 5],
      hIdx (listMin [(5 : ℚ), 5, 5]) (histBinWidth [(5 : ℚ), 5, 5] 4) 4 p = 0) ∧
    (makeHistogram [(5 : ℚ), 5, 5] 4).counts = [3, 0, 0, 0] := by
  have hmn : listMin [(5 : ℚ), 5, 5] = 5 := by simp [listMin]
  have hmx : listMax [(5 : ℚ), 5, 5] = 5 := by simp [listMax]
  have hbw : histBinWidth [(5 : ℚ), 5, 5] 4 = 1 / 4 := by
    rw [histBinWidth, histRange, hmn, hmx]
    norm_num
  have hidx : hIdx 5 (1 / 4 : ℚ) 4 5 = 0 := by
    rw [hIdx]
    norm_num
  refine ⟨by rw [hmn, hmx]; norm_num, by rw [histRange, hmn, hmx]; norm_num,
    by rw [hbw]; norm_num, ?_, ?_⟩
  · intro p hp
    have hp5 : p = 5 := by
      rcases List.mem_cons.mp hp with h | h
      · exact h
      rcases List.mem_cons.mp h with h | h
      · exact h
      rcases List.mem_cons.mp h with h | h
      · exact h
      · exact absurd h (List.not_mem_nil p)
    rw [hp5, hmn, hbw, hidx]
  · have hlen : ¬ [(5 : ℚ), 5, 5].length = 0 := by simp
    simp only [makeHistogram, if_neg hlen, hmn, hbw, hidx, List.foldl_cons, List.foldl_nil]
    rw [show List.replicate 4 0 = [0, 0, 0, 0] from rfl]
    simp [bump, hidx]

/-- **C7 counterexample.** With the degenerate profits list `[5,5,5]` and 4
bins, the maximum value 5 is assigned bucket 0, not the last bucket 3:
"the maximum value lands in the last bucket" fails when all values coincide. -/
theorem histogram_max_not_last_bucket :
    hIdx (listMin [(5 : ℚ), 5, 5]) (histBinWidth [(5 : ℚ), 5, 5] 4) 4
      (listMax [(5 : ℚ), 5, 5]) = 0 ∧ (0 : Int) ≠ (4 : Int) - 1 := by
  have hmn : listMin [(5 : ℚ), 5, 5] = 5 := by simp [listMin]
  have hmx : listMax [(5 : ℚ), 5, 5] = 5 := by simp [listMax]
  have hbw : histBinWidth [(5 : ℚ), 5, 5] 4 = 1 / 4 := by
    rw [histBinWidth, histRange, hmn, hmx]
    norm_num
  refine ⟨?_, by omega⟩
  rw [hmn, hmx, hbw, hIdx]
  norm_num

/-- **C7 (amended).** For every non-empty profits list and `bins ≥ 1`, each
value's bucket index equals `min (bins - 1) ⌊(p - min) / binWidth⌋` and lies
in `[0, bins - 1]` (so the count increment is in bounds); and whenever the
profits are not all equal (`min < max`), the maximum value is assigned the
last bucket, index `bins - 1`. -/
theorem hIdx_spec (profits : List ℚ) (bins : ℕ) (hne : profits ≠ []) (hb : 1 ≤ bins) :
    (∀ p ∈ profits,
      hIdx (listMin profits) (histBinWidth profits bins) bins p =
        min ((bins : Int) - 1) ⌊(p - listMin profits) / histBinWidth profits bins⌋ ∧
      0 ≤ hIdx (listMin profits) (histBinWidth profits bins) bins p ∧
      hIdx (listMin profits) (histBinWidth profits bins) bins p < (bins : Int)) ∧
    (listMin profits < listMax profits →
      hIdx (listMin profits) (histBinWidth profits bins) bins (listMax profits) =
        (bins : Int) - 1) := by
  have hbw := histBinWidth_pos profits bins hne hb
  constructor
  · intro p hp
    exact ⟨rfl,
      hIdx_nonneg (listMin profits) (histBinWidth profits bins) bins p hbw
        (listMin_le_of_mem hp) hb,
      hIdx_lt (listMin profits) (histBinWidth profits bins) bins p⟩
  · intro hlt
    have hne0 : listMax profits - listMin profits ≠ 0 := sub_ne_zero.mpr (ne_of_gt hlt)
    have hr : histRange profits = listMax profits - listMin profits := if_neg hne0
    have hdiv : (listMax profits - listMin profits) / histBinWidth profits bins = (bins : ℚ) := by
      rw [histBinWidth, hr, div_div_eq_mul_div, mul_comm, mul_div_assoc, div_self hne0, mul_one]
    rw [hIdx, hdiv, Int.floor_natCast]
    exact min_eq_left (by omega)

/-- **C7 witness.** The amended claim at the concrete input `[0, 1]` with 2
bins, whose maximum indeed lands in the last bucket. -/
theorem hIdx_spec_witness :
    ([(0 : ℚ), 1] ≠ [] ∧ 1 ≤ 2) ∧
    (listMin [(0 : ℚ), 1] < listMax [(0 : ℚ), 1] →
      hIdx (listMin [(0 : ℚ), 1]) (histBinWidth [(0 : ℚ), 1] 2) 2 (listMax [(0 : ℚ), 1]) =
        (2 : Int) - 1) :=
  ⟨⟨List.cons_ne_nil 0 [1], by omega⟩,
    (hIdx_spec [(0 : ℚ), 1] 2 (List.cons_ne_nil 0 [1]) (by omega)).2⟩

/-- **C5 counterexample.** On profits `[0, 1]` with one bin, the single label
is `"0.00–1.00"` (an en dash between the two fixed-point bounds), not the
claimed string `"[0.00, 1.00)"`. -/
theorem histogram_label_counterexample :
    (makeHistogram [(0 : ℚ), 1] 1).labels = ["0.00–1.00"] ∧
    "0.00–1.00" ≠ "[0.00, 1.00)" := by
  have hmn : listMin [(0 : ℚ), 1] = 0 := by
    rw [listMin, List.foldl_cons, List.foldl_nil, min_eq_left (by norm_num : (0 : ℚ) ≤ 1)]
  have hmx : listMax [(0 : ℚ), 1] = 1 := by
    rw [listMax, List.foldl_cons, List.foldl_nil, max_eq_right (by norm_num : (0 : ℚ) ≤ 1)]
  have hbw : histBinWidth [(0 : ℚ), 1] 1 = 1 := by
    rw [histBinWidth, histRange, hmn, hmx]
    norm_num
  have h0 : toFixed2 0 = "0.00" := by
    rw [toFixed2, if_neg (by norm_num : ¬ (0 : ℚ) < 0)]
    rw [show ⌊(0 : ℚ) * 100 + 1 / 2⌋ = 0 by norm_num]
    rfl
  have h1 : toFixed2 1 = "1.00" := by
    rw [toFixed2, if_neg (by norm_num : ¬ (1 : ℚ) < 0)]
    rw [show ⌊(1 : ℚ) * 100 + 1 / 2⌋ = 100 by norm_num]
    rfl
  have hlen : ¬ [(0 : ℚ), 1].length = 0 := by simp
  constructor
  · simp only [makeHistogram, if_neg hlen, hmn, hbw,
      show List.range 1 = [0] from rfl, List.map_cons, List.map_nil]
    rw [show (0 : ℚ) + ((0 : ℕ) : ℚ) * 1 = 0 by norm_num,
      show (0 : ℚ) + 1 = 1 by norm_num, h0, h1]
    rfl
  · decide

/-- **C5 (amended).** For every non-empty profits list, `bins`, and `i < bins`,
the `i`-th label shows lower bound `min + i * binWidth` and upper bound
`lower + binWidth`, each fixed-point formatted to 2 decimal places — but is
formatted `"lower–upper"` with an en dash, not `"[lower, upper)"`. -/
theorem makeHistogram_label_spec (profits : List ℚ) (bins : ℕ) (i : ℕ)
    (hne : profits ≠ []) (hi : i < bins) :
    (makeHistogram profits bins).labels[i]? =
      some (toFixed2 (listMin profits + (i : ℚ) * histBinWidth profits bins) ++ "–" ++
        toFixed2 (listMin profits + (i : ℚ) * histBinWidth profits bins +
          histBinWidth profits bins)) := by
  have hlen : ¬ profits.length = 0 := fun hc => hne (List.length_eq_zero.mp hc)
  simp only [makeHistogram, if_neg hlen]
  rw [List.getElem?_map, List.getElem?_range hi]
  rfl

/-- **C5 witness.** The amended label description at profits `[0, 1]`, one
bin, index 0. -/
theorem makeHistogram_label_spec_witness :
    ([(0 : ℚ), 1] ≠ [] ∧ 0 < 1) ∧
    (makeHistogram [(0 : ℚ), 1] 1).labels[0]? =
      some (toFixed2 (listMin [(0 : ℚ), 1] + ((0 : ℕ) : ℚ) * histBinWidth [(0 : ℚ), 1] 1)
        ++ "–" ++
        toFixed2 (listMin [(0 : ℚ), 1] + ((0 : ℕ) : ℚ) * histBinWidth [(0 : ℚ), 1] 1 +
          histBinWidth [(0 : ℚ), 1] 1)) :=
  ⟨⟨List.cons_ne_nil 0 [1], Nat.zero_lt_one⟩,
    makeHistogram_label_spec [(0 : ℚ), 1] 1 0 (List.cons_ne_nil 0 [1]) Nat.zero_lt_one⟩

/-- **C4.** The cumulative series emits one point per trade with a defined
`open_time` (its length equals the count of such trades); its last value is
the net profit sum of that filtered subset; and on the end-to-end example
(profits 100, −40, null at ascending times) the series is `[100, 60, 60]`. -/
theorem timeseries_spec (trades : List Trade) :
    (timeseries trades).length = (trades.filter (fun t => t.open_time.isSome)).length ∧
    (timeseries trades).getLast? =
      (if (trades.filter (fun t => t.open_time.isSome)).length = 0 then none
       else some (computeStats (trades.filter (fun t => t.open_time.isSome))).sum) ∧
    timeseries exampleTrades = [100, 60, 60] := by
  refine ⟨?_, ?_, ?_⟩
  · rw [timeseries, cumFrom_length, List.length_map, sortedByOpenTime, List.length_mergeSort]
  · by_cases hempty : (trades.filter (fun t => t.open_time.isSome)).length = 0
    · rw [if_pos hempty]
      rw [List.length_eq_zero] at hempty
      rw [timeseries, sortedByOpenTime, hempty, List.mergeSort_nil]
      rfl
    · rw [if_neg hempty]
      have hne : ((sortedByOpenTime trades).map profitOrZero) ≠ [] := by
        intro hc
        apply hempty
        have := congrArg List.length hc
        rw [List.length_map, sortedByOpenTime, List.length_mergeSort] at this
        exact this
      rw [timeseries, cumFrom_getLast? 0 _ hne, zero_add]
      congr 1
      have hperm : ((sortedByOpenTime trades).map profitOrZero).Perm
          ((trades.filter (fun t => t.open_time.isSome)).map profitOrZero) := by
        unfold sortedByOpenTime
        exact (List.mergeSort_perm (trades.filter (fun t => t.open_time.isSome)) tsLe).map
          profitOrZero
      rw [hperm.sum_eq]
      simp only [computeStats]
      rw [foldl_add_eq_add_sum, zero_add]
  · have hfil : exampleTrades.filter (fun t => t.open_time.isSome) = exampleTrades := rfl
    have hpair : List.Pairwise (fun a b => tsLe a b) exampleTrades := by
      rw [exampleTrades]
      refine List.Pairwise.cons ?_ (List.Pairwise.cons ?_ (List.Pairwise.cons ?_
        List.Pairwise.nil))
      · intro b hb
        rcases List.mem_cons.mp hb with hb | hb
        · subst hb; norm_num [tsLe]
        rcases List.mem_cons.mp hb with hb | hb
        · subst hb; norm_num [tsLe]
        · exact absurd hb (List.not_mem_nil b)
      · intro b hb
        rcases List.mem_cons.mp hb with hb | hb
        · subst hb; norm_num [tsLe]
        · exact absurd hb (List.not_mem_nil b)
      · intro b hb
        exact absurd hb (List.not_mem_nil b)
    rw [timeseries, sortedByOpenTime, hfil, List.mergeSort_of_sorted hpair,
      show exampleTrades.map profitOrZero = [(100 : ℚ), -40, 0] from rfl,
      cumFrom, cumFrom, cumFrom, cumFrom]
    norm_num

end Analysis

/-- **C8.** Replacing every absent profit by a stored 0 changes nothing in any
aggregation: the summary statistics, the histogram over the mapped profits,
the cumulative series, and the dashboard's historical-profit sum are all
unchanged — a missing profit and a stored zero profit are indistinguishable in
effect. -/
theorem zeroFill_aggregation_invariant :
    (∀ trades : List Analysis.Trade,
      Analysis.computeStats (trades.map Analysis.zeroFill) = Analysis.computeStats trades) ∧
    (∀ (trades : List Analysis.Trade) (bins : ℕ),
      Analysis.makeHistogram ((trades.map Analysis.zeroFill).map Analysis.profitOrZero) bins =
        Analysis.makeHistogram (trades.map Analysis.profitOrZero) bins) ∧
    (∀ trades : List Analysis.Trade,
      Analysis.timeseries (trades.map Analysis.zeroFill) = Analysis.timeseries trades) ∧
    (∀ trades : List Dashboard.Trade,
      Dashboard.totalClosedProfit (trades.map Dashboard.zeroFill) =
        Dashboard.totalClosedProfit trades) := by
  refine ⟨?_, ?_, ?_, ?_⟩
  · intro trades
    simp only [Analysis.computeStats, List.length_map, Analysis.map_profitOrZero_zeroFill]
  · intro trades bins
    rw [Analysis.map_profitOrZero_zeroFill]
  · intro trades
    rw [Analysis.timeseries, Analysis.timeseries, Analysis.sortedByOpenTime,
      Analysis.sortedByOpenTime]
    have hfil : (trades.map Analysis.zeroFill).filter (fun t => t.open_time.isSome) =
        (trades.filter (fun t => t.open_time.isSome)).map Analysis.zeroFill := by
      rw [List.filter_map]
      rfl
    have hcond : ∀ a ∈ trades.filter (fun t => t.open_time.isSome),
        ∀ b ∈ trades.filter (fun t => t.open_time.isSome),
          Analysis.tsLe a b = Analysis.tsLe (Analysis.zeroFill a) (Analysis.zeroFill b) :=
      fun _ _ _ _ => rfl
    have hms : List.map Analysis.zeroFill
          ((trades.filter (fun t => t.open_time.isSome)).mergeSort Analysis.tsLe) =
        ((trades.filter (fun t => t.open_time.isSome)).map Analysis.zeroFill).mergeSort
          Analysis.tsLe :=
      List.map_mergeSort hcond
    rw [hfil, ← hms, Analysis.map_profitOrZero_zeroFill]
  · intro trades
    rw [Dashboard.totalClosedProfit, Dashboard.totalClosedProfit]
    have hfil : Dashboard.historyTrades (trades.map Dashboard.zeroFill) =
        (Dashboard.historyTrades trades).map Dashboard.zeroFill := by
      rw [Dashboard.historyTrades, Dashboard.historyTrades, List.filter_map]
      rfl
    rw [hfil, List.foldl_map]
    rfl

/-- **C3 counterexample.** The dashboard's `fetchData` orders the trade rows
by `open_time` *descending*, refuting the claim that every trades fetch of the
views requests ascending order. -/
theorem fetchData_descending_counterexample :
    Dashboard.fetchDataQuery.orderColumn = "open_time" ∧
    Dashboard.fetchDataQuery.ascending = false ∧
    ¬ Dashboard.fetchDataQuery.ascending = true := by
  refine ⟨rfl, rfl, ?_⟩
  intro h
  exact Bool.false_ne_true h

/-- **C3 (amended).** Both views build their trades query ordered on
`open_time`, but only the analysis page's `fetchTrades` requests ascending
order; the dashboard's `fetchData` requests descending order. -/
theorem trades_query_order_spec :
    (∀ fromDate toDate : Option String,
      (Analysis.fetchTradesQuery fromDate toDate).orderColumn = "open_time" ∧
      (Analysis.fetchTradesQuery fromDate toDate).ascending = true) ∧
    Dashboard.fetchDataQuery.orderColumn = "open_time" ∧
    Dashboard.fetchDataQuery.ascending = false :=
  ⟨fun _ _ => ⟨rfl, rfl⟩, rfl, rfl⟩

namespace Dashboard

/-- **C9.** The historical-profit sum and the dashboard win rate are computed
only over trades with a non-null `close_time`: restricting the list to its
history part changes neither, prepending a trade with `close_time = none`
changes neither, and such a trade is never a member of the history part. -/
theorem history_only_aggregation (trades : List Trade) (t : Trade)
    (h : t.close_time = none) :
    totalClosedProfit trades = totalClosedProfit (historyTrades trades) ∧
    winRate trades = winRate (historyTrades trades) ∧
    totalClosedProfit (t :: trades) = totalClosedProfit trades ∧
    winRate (t :: trades) = winRate trades ∧
    t ∉ historyTrades (t :: trades) := by
  have hidem : historyTrades (historyTrades trades) = historyTrades trades := by
    simp [historyTrades, List.filter_filter]
  have hcons : historyTrades (t :: trades) = historyTrades trades := by
    rw [historyTrades, historyTrades, List.filter_cons]
    simp [h]
  refine ⟨?_, ?_, ?_, ?_, ?_⟩
  · rw [totalClosedProfit, totalClosedProfit, hidem]
  · rw [winRate, winRate, hidem]
  · rw [totalClosedProfit, totalClosedProfit, hcons]
  · rw [winRate, winRate, hcons]
  · rw [hcons]
    intro hm
    have hpred := (List.mem_filter.mp hm).2
    simp [h] at hpred

/-- **C9 witness.** The insertion-invariance and non-membership conclusions at
a concrete active trade (no `close_time`, profit 50) over the empty list. -/
theorem history_only_aggregation_witness :
    (Trade.mk 1 "XAUUSD" "BUY" 2000 none (some 50) 0 none).close_time = none ∧
    totalClosedProfit [Trade.mk 1 "XAUUSD" "BUY" 2000 none (some 50) 0 none] =
      totalClosedProfit [] ∧
    Trade.mk 1 "XAUUSD" "BUY" 2000 none (some 50) 0 none ∉
      historyTrades [Trade.mk 1 "XAUUSD" "BUY" 2000 none (some 50) 0 none] := by
  have h := history_only_aggregation []
    (Trade.mk 1 "XAUUSD" "BUY" 2000 none (some 50) 0 none) rfl
  exact ⟨rfl, h.2.2.1, h.2.2.2.2⟩

end Dashboard

end TradeDashboard
